import Mathlib

/-!
Verification of the text-region detection pipeline of the OCR repository
(`src/components/OCRForm.tsx`, function `detectTextRegions`).

The pipeline is embedded shallowly:
* the working grayscale image is a function `gray : Nat → Nat → Nat`
  (the red channel after the in-place grayscale conversion; the JS code
  stores the same luminance in R, G and B);
* the Otsu scan is a fuel-indexed recursion over the 256 threshold
  candidates, with the JS floating-point arithmetic carried out in `ℚ`;
* the two-pass connected-component labeling is a left fold over the
  row-major pixel list, with the label grid and the equivalence `Record`
  represented as functions updated pointwise;
* box aggregation, the noise filter, the proximity merge and the final
  rescaling are direct translations of the corresponding JS loops.
-/

/-- Row-major pixel coordinates of a `w × h` image: the JS code scans
`for y then for x`, so the list is rows from top to bottom, each row left
to right. -/
def pixelList (w h : Nat) : List (Nat × Nat) :=
  (List.range h).flatMap (fun y => (List.range w).map (fun x => (x, y)))

/-- One `histogram[g]++` of the histogram loop. -/
def bumpHist (f : Nat → Nat) (g : Nat) : Nat → Nat :=
  fun t => if t = g then f t + 1 else f t

/-- The 256-bin histogram built by iterating over all pixels
(`histogram[pData[i]]++`). -/
def histogram (w h : Nat) (gray : Nat → Nat → Nat) : Nat → Nat :=
  (pixelList w h).foldl (fun f p => bumpHist f (gray p.1 p.2)) (fun _ => 0)

/-- `sum = Σ i * histogram[i]` over the 256 bins, as computed before the
Otsu scan. -/
def otsuSum (hist : Nat → Nat) : ℚ :=
  ((List.range 256).map (fun (i : Nat) => (i : ℚ) * (hist i : ℚ))).sum

/-- The Otsu threshold scan.  `t` is the current candidate, `fuel` counts
the remaining loop iterations (`256 - t` at every call), `wB`/`sumB` are
the running background weight and sum, `maxVar` the best between-class
variance so far and `thr` the best threshold so far.  The JS loop body:
skip while `wB == 0`, break when `wF == 0`, update `threshold` only on a
strictly larger variance (ties keep the first maximizing `t`). -/
def otsuGo (hist : Nat → Nat) (total sum : ℚ) :
    Nat → Nat → ℚ → ℚ → ℚ → Nat → Nat
  | _, 0, _, _, _, thr => thr
  | t, fuel + 1, wB, sumB, maxVar, thr =>
    if wB + (hist t : ℚ) = 0 then
      otsuGo hist total sum (t + 1) fuel (wB + (hist t : ℚ)) sumB maxVar thr
    else if total - (wB + (hist t : ℚ)) = 0 then thr
    else
      if maxVar <
          (wB + (hist t : ℚ)) * (total - (wB + (hist t : ℚ))) *
            ((sumB + (t : ℚ) * (hist t : ℚ)) / (wB + (hist t : ℚ)) -
              (sum - (sumB + (t : ℚ) * (hist t : ℚ))) /
                (total - (wB + (hist t : ℚ)))) ^ 2 then
        otsuGo hist total sum (t + 1) fuel (wB + (hist t : ℚ))
          (sumB + (t : ℚ) * (hist t : ℚ))
          ((wB + (hist t : ℚ)) * (total - (wB + (hist t : ℚ))) *
            ((sumB + (t : ℚ) * (hist t : ℚ)) / (wB + (hist t : ℚ)) -
              (sum - (sumB + (t : ℚ) * (hist t : ℚ))) /
                (total - (wB + (hist t : ℚ)))) ^ 2) t
      else
        otsuGo hist total sum (t + 1) fuel (wB + (hist t : ℚ))
          (sumB + (t : ℚ) * (hist t : ℚ)) maxVar thr

/-- The Otsu threshold of a histogram, `total` being the pixel count
(`pData.length / 4`). -/
def otsu (hist : Nat → Nat) (total : Nat) : Nat :=
  otsuGo hist (total : ℚ) (otsuSum hist) 0 256 0 0 0 0

/-- Binarization: a pixel is ink (`binData == 0`) iff its luminance is
strictly below the threshold (`pData[i] < threshold ? 0 : 255`). -/
def inkOf (gray : Nat → Nat → Nat) (thr : Nat) : Nat → Nat → Bool :=
  fun x y => decide (gray x y < thr)

/-- State of labeling pass 1: the label grid (`labels`, 0 = background),
the fresh-label counter (`nextLabel`) and the equivalence `Record`
(`equivalences`, `none` = key absent). -/
structure LState where
  labels : Nat × Nat → Nat
  next : Nat
  equiv : Nat → Option Nat

/-- Initial state of pass 1: empty grid, counter 1, empty table. -/
def initLState : LState :=
  { labels := fun _ => 0, next := 1, equiv := fun _ => none }

/-- Pointwise update of the label grid. -/
def updLabels (f : Nat × Nat → Nat) (p : Nat × Nat) (v : Nat) :
    Nat × Nat → Nat :=
  fun q => if q = p then v else f q

/-- Pointwise update of the equivalence table (`equivalences[n] = m`,
last write wins). -/
def updEquiv (e : Nat → Option Nat) (k v : Nat) : Nat → Option Nat :=
  fun m => if m = k then some v else e m

/-- `Math.min(...list)` on a nonempty list of labels.  The JS value on an
empty list is `Infinity`; that case is unreachable because the code tests
`neighbors.length === 0` first and every collected neighbor label is
positive, so the `[]` branch value 0 is never observed. -/
def jsMin (l : List Nat) : Nat :=
  match l with
  | [] => 0
  | a :: r => r.foldl Nat.min a

/-- The neighbor labels collected at a foreground pixel `(x, y)`: the
code pushes, in order, the label of the left, top, top-left and top-right
pixel, each guarded by the bounds check and by that pixel being ink
(`binData[...] === 0`). -/
def neighborList (w : Nat) (ink : Nat → Nat → Bool)
    (lab : Nat × Nat → Nat) (x y : Nat) : List Nat :=
  (if 0 < x ∧ ink (x - 1) y = true then [lab (x - 1, y)] else []) ++
  (if 0 < y ∧ ink x (y - 1) = true then [lab (x, y - 1)] else []) ++
  (if 0 < x ∧ 0 < y ∧ ink (x - 1) (y - 1) = true then [lab (x - 1, y - 1)]
    else []) ++
  (if x + 1 < w ∧ 0 < y ∧ ink (x + 1) (y - 1) = true then
    [lab (x + 1, y - 1)] else [])

/-- The causal neighbor positions themselves (left, top, top-left,
top-right), used to state what pass 1 inspects. -/
def causalNeighbors (w : Nat) (x y : Nat) : List (Nat × Nat) :=
  (if 0 < x then [(x - 1, y)] else []) ++
  (if 0 < y then [(x, y - 1)] else []) ++
  (if 0 < x ∧ 0 < y then [(x - 1, y - 1)] else []) ++
  (if x + 1 < w ∧ 0 < y then [(x + 1, y - 1)] else [])

/-- The labels of exactly those causal neighbors that are in bounds and
themselves foreground. -/
def observedNeighborLabels (w : Nat) (ink : Nat → Nat → Bool)
    (lab : Nat × Nat → Nat) (x y : Nat) : List Nat :=
  ((causalNeighbors w x y).filter (fun q => ink q.1 q.2)).map lab

/-- The pass-1 body for one pixel: skip background; with no foreground
neighbor assign a fresh label and bump the counter; otherwise assign the
minimum of the (positive-filtered) neighbor labels and record
`other → minimum` for every other collected neighbor label. -/
def labelStep (w : Nat) (ink : Nat → Nat → Bool) (s : LState)
    (p : Nat × Nat) : LState :=
  if ink p.1 p.2 = false then s
  else
    let ns := neighborList w ink s.labels p.1 p.2
    if ns = [] then
      { labels := updLabels s.labels p s.next, next := s.next + 1,
        equiv := s.equiv }
    else
      let m := jsMin (ns.filter (fun l => decide (0 < l)))
      { labels := updLabels s.labels p m, next := s.next,
        equiv := ns.foldl
          (fun e n => if 0 < n ∧ n ≠ m then updEquiv e n m else e) s.equiv }

/-- The state of pass 1 after the first `k` pixels of the row-major
scan. -/
def scanUpTo (w h : Nat) (ink : Nat → Nat → Bool) (k : Nat) : LState :=
  ((pixelList w h).take k).foldl (labelStep w ink) initLState

/-- Labeling pass 1 over the whole image. -/
def pass1 (w h : Nat) (ink : Nat → Nat → Bool) : LState :=
  (pixelList w h).foldl (labelStep w ink) initLState

/-- The chain-following loop of `resolveLabel`:
`while (equivalences[curr] && equivalences[curr] !== curr) curr = ...`.
A stored value 0 is falsy in JS, hence the `m = 0` stop.  `fuel = curr`
suffices because every recorded entry maps a label to a strictly smaller
one. -/
def resolveGo (e : Nat → Option Nat) : Nat → Nat → Nat
  | 0, curr => curr
  | fuel + 1, curr =>
    match e curr with
    | none => curr
    | some m => if m = 0 ∨ m = curr then curr else resolveGo e fuel m

/-- `resolveLabel`: 0 resolves to 0, otherwise follow the table. -/
def resolveLabel (e : Nat → Option Nat) (l : Nat) : Nat :=
  if l = 0 then 0 else resolveGo e l l

/-- Pass 2: every positive grid entry is replaced by its resolved
canonical label. -/
def pass2 (s : LState) : Nat × Nat → Nat :=
  fun p => if 0 < s.labels p then resolveLabel s.equiv (s.labels p)
    else s.labels p

/-- A bounding box in working-resolution pixel coordinates. -/
structure Box where
  minX : Nat
  minY : Nat
  maxX : Nat
  maxY : Nat
deriving DecidableEq

/-- One step of the per-label extent loop: a zero label is skipped, a
first occurrence creates the box `{x, y, x, y}`, later occurrences expand
the box. -/
def boxStep (lab : Nat × Nat → Nat) (bm : Nat → Option Box)
    (p : Nat × Nat) : Nat → Option Box :=
  if lab p = 0 then bm
  else
    match bm (lab p) with
    | none => fun k => if k = lab p then some ⟨p.1, p.2, p.1, p.2⟩ else bm k
    | some b => fun k =>
        if k = lab p then
          some ⟨min b.minX p.1, min b.minY p.2, max b.maxX p.1,
            max b.maxY p.2⟩
        else bm k

/-- The `boxes` record: label ↦ bounding box, built over the whole grid. -/
def boxMapOf (w h : Nat) (lab : Nat × Nat → Nat) : Nat → Option Box :=
  (pixelList w h).foldl (boxStep lab) (fun _ => none)

/-- `Object.values(boxes)`: a JS record with integer-like keys enumerates
its values in ascending numeric key order, so we read the present keys
out of `0, 1, …, bound - 1` (every stored label is below the pass-1
counter). -/
def boxList (w h : Nat) (lab : Nat × Nat → Nat) (bound : Nat) : List Box :=
  (List.range bound).filterMap (boxMapOf w h lab)

/-- The noise filter: keep a box only if
`(maxX - minX) * (maxY - minY) > 400`. -/
def significantBoxes (l : List Box) : List Box :=
  l.filter (fun b => decide (400 < (b.maxX - b.minX) * (b.maxY - b.minY)))

/-- Merging `box2` into `box1`: the union of extents. -/
def union2 (a b : Box) : Box :=
  ⟨min a.minX b.minX, min a.minY b.minY, max a.maxX b.maxX,
    max a.maxY b.maxY⟩

/-- The proximity test of `mergeBoxes` with `distance = 30`:
`box1.minX - 30 <= box2.maxX && box1.maxX + 30 >= box2.minX` and likewise
vertically.  The subtraction can go below zero, hence the `ℤ` casts. -/
def isClose (a b : Box) : Bool :=
  decide ((a.minX : ℤ) - 30 ≤ (b.maxX : ℤ)) &&
  decide ((a.maxX : ℤ) + 30 ≥ (b.minX : ℤ)) &&
  decide ((a.minY : ℤ) - 30 ≤ (b.maxY : ℤ)) &&
  decide ((a.maxY : ℤ) + 30 ≥ (b.minY : ℤ))

/-- The inner `j` loop for a fixed `box1`: find the first later box close
to it; on success return the union (which replaces `box1` in place) and
the remaining later boxes (the found one is spliced out). -/
def mergeInner (a : Box) : List Box → Option (Box × List Box)
  | [] => none
  | b :: rest =>
    if isClose a b then some (union2 a b, rest)
    else
      match mergeInner a rest with
      | some (u, rest2) => some (u, b :: rest2)
      | none => none

/-- One full pairwise pass of `mergeBoxes` up to the first merge: the
outer `i` loop.  Returns the list after that single merge, or `none` when
no pair is close. -/
def mergeOnce : List Box → Option (List Box)
  | [] => none
  | a :: rest =>
    match mergeInner a rest with
    | some (u, rest2) => some (u :: rest2)
    | none =>
      match mergeOnce rest with
      | some l2 => some (a :: l2)
      | none => none

/-- The `while (merged)` loop: restart the pairwise scan after every
merge.  Since each merge removes one box, `fuel = length` iterations
always reach the fixed point. -/
def mergeLoopFuel : Nat → List Box → List Box
  | 0, l => l
  | fuel + 1, l =>
    match mergeOnce l with
    | none => l
    | some l2 => mergeLoopFuel fuel l2

/-- `mergeBoxes`: lists of length ≤ 1 are returned unchanged, otherwise
the merge loop runs to its fixed point. -/
def mergeBoxes (l : List Box) : List Box :=
  if l.length ≤ 1 then l else mergeLoopFuel l.length l

/-- A bounding box in original-image coordinates. -/
structure BBox where
  x0 : ℤ
  y0 : ℤ
  x1 : ℤ
  y1 : ℤ
deriving DecidableEq

/-- The rescaling of one merged box back to original coordinates, with
`padding = 10` at the call site:
`x0 = max(0, floor(minX / scale) - padding)`, …,
`x1 = min(origWidth, ceil(maxX / scale) + padding)`, …. -/
def scaleBox (scale : ℚ) (padding : ℤ) (ow oh : ℤ) (b : Box) : BBox :=
  ⟨max 0 (⌊(b.minX : ℚ) / scale⌋ - padding),
    max 0 (⌊(b.minY : ℚ) / scale⌋ - padding),
    min ow (⌈(b.maxX : ℚ) / scale⌉ + padding),
    min oh (⌈(b.maxY : ℚ) / scale⌉ + padding)⟩

/-- `scale = Math.max(2, Math.min(2000 / width, 2000 / height))`. -/
def computeScale (ow oh : Nat) : ℚ :=
  max 2 (min (2000 / (ow : ℚ)) (2000 / (oh : ℚ)))

/-- The detection pipeline from the working grayscale image to the list
of region bounding boxes in original coordinates: histogram → Otsu
threshold → binarization → two-pass labeling → per-label boxes → noise
filter → proximity merge → rescale with padding 10.  (The final canvas
crop of each region is presentation plumbing and carries no further
geometry.) -/
def detectRegions (w h : Nat) (gray : Nat → Nat → Nat) (scale : ℚ)
    (ow oh : ℤ) : List BBox :=
  let thr := otsu (histogram w h gray) (w * h)
  let ink := inkOf gray thr
  let s := pass1 w h ink
  (mergeBoxes (significantBoxes (boxList w h (pass2 s) s.next))).map
    (scaleBox scale 10 ow oh)

/-- Modelled from the spec: the Preprocessor "draw[s] the source image
scaled into" the working canvas.  The platform rasterizer that performs
the draw is not part of the repository, so an integer upscale is modelled
exactly, working pixel `(x, y)` showing source pixel `(x / s, y / s)`. -/
def scaledGray (s : Nat) (srcGray : Nat → Nat → Nat) : Nat → Nat → Nat :=
  fun x y => srcGray (x / s) (y / s)

/-- The end-to-end scenario source image: a 100×100 white canvas with a
20×20 black square whose top-left corner is at (40, 40). -/
def scenarioSrc : Nat → Nat → Nat :=
  fun x y => if 40 ≤ x ∧ x < 60 ∧ 40 ≤ y ∧ y < 60 then 0 else 255

/-- An image whose every pixel has the same luminance `g`. -/
def uniformGray (g : Nat) : Nat → Nat → Nat := fun _ _ => g

/-- A synthetic bimodal histogram: `n1` pixels at luminance `a` and `n2`
pixels at luminance `b`, nothing else. -/
def twoSpikeHist (a b n1 n2 : Nat) : Nat → Nat :=
  fun i => if i = a then n1 else if i = b then n2 else 0

/-- The ink mask of the connected-component counterexample image
(width 8, height 4); `true` = ink. -/
def inkCE : Nat → Nat → Bool := fun x y =>
  decide ((y = 0 ∧ (x = 0 ∨ x = 4 ∨ x = 6)) ∨
    (y = 1 ∧ (x = 0 ∨ x = 1 ∨ x = 2 ∨ x = 5 ∨ x = 7)) ∨
    (y = 2 ∧ (x = 0 ∨ x = 7)) ∨
    (y = 3 ∧ x < 7))

/-- The observable state of a JS promise: settled with a value, settled
with a rejection reason, or forever pending. -/
inductive PromiseOutcome (α : Type) where
  | resolved : α → PromiseOutcome α
  | rejected : String → PromiseOutcome α
  | pending : PromiseOutcome α
deriving DecidableEq

/-- What the `img.onload` event handler of `detectTextRegions` does:
complete normally with the result, or throw
`new Error('Canvas context is null')` when a drawing context cannot be
created. -/
inductive HandlerOutcome (α : Type) where
  | ok : α → HandlerOutcome α
  | thrown : String → HandlerOutcome α
deriving DecidableEq

/-- The handler body of `detectTextRegions`, reduced to the control flow
the error-handling claim is about: `getContext` returning `null` makes
the handler throw before ever calling `resolve`. -/
def detectOnload (α : Type) (ctxOk : Bool) (result : α) :
    HandlerOutcome α :=
  if ctxOk then .ok result else .thrown "Canvas context is null"

/-- JS semantics of `new Promise((resolve) => { img.onload = handler })`
as written in `detectTextRegions`: only `resolve` is captured by the
executor, and the handler runs later from the event loop, so an exception
thrown inside it is NOT routed to any `reject` — the promise settles only
when the handler completes normally, and otherwise stays pending
forever. -/
def settleOnload (α : Type) (hr : HandlerOutcome α) : PromiseOutcome α :=
  match hr with
  | .ok a => .resolved a
  | .thrown _ => .pending

/-- The outcome, observable by the `await`ing caller, of one
`detectTextRegions` run in which the drawing context is available
(`ctxOk = true`) or not (`ctxOk = false`). -/
def detectTextRegionsOutcome (α : Type) (ctxOk : Bool) (result : α) :
    PromiseOutcome α :=
  settleOnload α (detectOnload α ctxOk result)

/-! ### Properties of the proximity merge -/

theorem mergeInner_length (a : Box) :
    ∀ l u rest2, mergeInner a l = some (u, rest2) →
      rest2.length + 1 = l.length := by
  intro l
  induction l with
  | nil => intro u rest2 h; simp [mergeInner] at h
  | cons b rest ih =>
    intro u rest2 h
    by_cases hc : isClose a b
    · simp [mergeInner, hc] at h
      simp [← h.2]
    · simp only [mergeInner, hc, if_neg, Bool.false_eq_true, if_false] at h
      cases hrec : mergeInner a rest with
      | none => rw [hrec] at h; simp at h
      | some pr =>
        rw [hrec] at h
        simp at h
        rcases h with ⟨h1, h2⟩
        have := ih pr.1 pr.2 (by rw [hrec])
        simp [← h2, List.length_cons]
        omega

theorem mergeOnce_length :
    ∀ l l2, mergeOnce l = some l2 → l2.length + 1 = l.length := by
  intro l
  induction l with
  | nil => intro l2 h; simp [mergeOnce] at h
  | cons a rest ih =>
    intro l2 h
    cases hin : mergeInner a rest with
    | some pr =>
      rw [mergeOnce, hin] at h
      simp at h
      have := mergeInner_length a rest pr.1 pr.2 (by rw [hin])
      simp [← h, List.length_cons]
      omega
    | none =>
      rw [mergeOnce, hin] at h
      cases hrec : mergeOnce rest with
      | none => rw [hrec] at h; simp at h
      | some l3 =>
        rw [hrec] at h
        simp at h
        have := ih l3 hrec
        simp [← h, List.length_cons]
        omega

theorem mergeOnce_nil : mergeOnce [] = none := rfl

theorem mergeLoopFuel_nil : ∀ fuel, mergeLoopFuel fuel [] = [] := by
  intro fuel
  cases fuel with
  | zero => rfl
  | succ f => simp [mergeLoopFuel, mergeOnce]

theorem mergeOnce_of_loop :
    ∀ fuel l, l.length ≤ fuel → mergeOnce (mergeLoopFuel fuel l) = none := by
  intro fuel
  induction fuel with
  | zero =>
    intro l hl
    have : l = [] := List.length_eq_zero.mp (Nat.le_zero.mp hl)
    subst this
    simp [mergeLoopFuel, mergeOnce]
  | succ f ih =>
    intro l hl
    cases hm : mergeOnce l with
    | none => simp [mergeLoopFuel, hm]
    | some l2 =>
      have hlen := mergeOnce_length l l2 hm
      simp only [mergeLoopFuel, hm]
      exact ih l2 (by omega)

theorem mergeLoopFuel_length_le :
    ∀ fuel l, (mergeLoopFuel fuel l).length ≤ l.length := by
  intro fuel
  induction fuel with
  | zero => intro l; simp [mergeLoopFuel]
  | succ f ih =>
    intro l
    cases hm : mergeOnce l with
    | none => simp [mergeLoopFuel, hm]
    | some l2 =>
      have hlen := mergeOnce_length l l2 hm
      simp only [mergeLoopFuel, hm]
      have := ih l2
      omega

theorem mergeLoopFuel_congr :
    ∀ f g l, l.length ≤ f → l.length ≤ g →
      mergeLoopFuel f l = mergeLoopFuel g l := by
  intro f
  induction f with
  | zero =>
    intro g l hf _
    have : l = [] := List.length_eq_zero.mp (Nat.le_zero.mp hf)
    subst this
    rw [mergeLoopFuel_nil, mergeLoopFuel_nil]
  | succ f2 ih =>
    intro g l hf hg
    cases hm : mergeOnce l with
    | none =>
      cases g with
      | zero =>
        have : l = [] := List.length_eq_zero.mp (Nat.le_zero.mp hg)
        subst this
        rw [mergeLoopFuel_nil, mergeLoopFuel_nil]
      | succ g2 => simp [mergeLoopFuel, hm]
    | some l2 =>
      have hlen := mergeOnce_length l l2 hm
      cases g with
      | zero => omega
      | succ g2 =>
        simp only [mergeLoopFuel, hm]
        exact ih g2 l2 (by omega) (by omega)

theorem mergeBoxes_of_fixed (l : List Box) (h : mergeOnce l = none) :
    mergeBoxes l = l := by
  unfold mergeBoxes
  by_cases hl : l.length ≤ 1
  · simp [hl]
  · simp only [hl, if_false]
    have : 1 ≤ l.length := by omega
    cases l with
    | nil => simp at this
    | cons a rest => simp [mergeLoopFuel, h]

theorem mergeOnce_short (l : List Box) (h : l.length ≤ 1) :
    mergeOnce l = none := by
  cases l with
  | nil => rfl
  | cons a rest =>
    cases rest with
    | nil => simp [mergeOnce, mergeInner]
    | cons b r => simp at h

/-- C7: the proximity-merge step is idempotent — rerunning `mergeBoxes` on
any completed output returns it unchanged, because the loop only stops
once no pair of remaining boxes is close. -/
theorem C7_merge_idempotent (l : List Box) :
    mergeBoxes (mergeBoxes l) = mergeBoxes l := by
  apply mergeBoxes_of_fixed
  unfold mergeBoxes
  by_cases hl : l.length ≤ 1
  · simp only [hl, if_true]
    exact mergeOnce_short l hl
  · simp only [hl, if_false]
    exact mergeOnce_of_loop l.length l le_rfl

/-- C8: the restart-on-every-merge loop terminates — every successful
merge removes exactly one box, the loop reaches a state with no close
pair within `length` iterations, any larger fuel gives the same result,
and the final box count never exceeds the initial one. -/
theorem C8_merge_terminates (l : List Box) :
    (∀ l2, mergeOnce l = some l2 → l2.length + 1 = l.length) ∧
    mergeOnce (mergeLoopFuel l.length l) = none ∧
    (∀ fuel, l.length ≤ fuel →
      mergeLoopFuel fuel l = mergeLoopFuel l.length l) ∧
    (mergeBoxes l).length ≤ l.length := by
  refine ⟨fun l2 h => mergeOnce_length l l2 h,
    mergeOnce_of_loop l.length l le_rfl,
    fun fuel hf => mergeLoopFuel_congr fuel l.length l hf le_rfl, ?_⟩
  unfold mergeBoxes
  by_cases hl : l.length ≤ 1
  · simp [hl]
  · simp only [hl, if_false]
    exact mergeLoopFuel_length_le l.length l

theorem C8_merge_terminates_witness :
    mergeOnce (mergeLoopFuel 2 [(⟨0, 0, 10, 10⟩ : Box), ⟨5, 5, 20, 20⟩])
        = none ∧
    mergeLoopFuel 7 [(⟨0, 0, 10, 10⟩ : Box), ⟨5, 5, 20, 20⟩]
        = mergeLoopFuel 2 [(⟨0, 0, 10, 10⟩ : Box), ⟨5, 5, 20, 20⟩] ∧
    (mergeBoxes [(⟨0, 0, 10, 10⟩ : Box), ⟨5, 5, 20, 20⟩]).length ≤ 2 :=
  ⟨(C8_merge_terminates [⟨0, 0, 10, 10⟩, ⟨5, 5, 20, 20⟩]).2.1,
    (C8_merge_terminates [⟨0, 0, 10, 10⟩, ⟨5, 5, 20, 20⟩]).2.2.1 7
      (by decide),
    (C8_merge_terminates [⟨0, 0, 10, 10⟩, ⟨5, 5, 20, 20⟩]).2.2.2⟩

/-- C1 counterexample: the boxes `[0,50]×[0,50]` and `[91,141]×[0,50]`
are separated by 41px horizontally (and 0px vertically), i.e. by less
than twice the 30px merge distance on both axes, yet `mergeBoxes` leaves
them unmerged as two distinct boxes. -/
theorem C1_gap41_not_merged :
    ((⟨91, 0, 141, 50⟩ : Box).minX - (⟨0, 0, 50, 50⟩ : Box).maxX = 41 ∧
      41 < 60) ∧
    mergeBoxes [(⟨0, 0, 50, 50⟩ : Box), ⟨91, 0, 141, 50⟩]
      = [⟨0, 0, 50, 50⟩, ⟨91, 0, 141, 50⟩] ∧
    (mergeBoxes [(⟨0, 0, 50, 50⟩ : Box), ⟨91, 0, 141, 50⟩]).length = 2 := by
  decide

/-- C1 (amended): with merge distance 30px, a pair of boxes is merged
exactly when each axis separation is at most 30px — i.e. when one box's
extent expanded by the distance margin meets the other's extent (not both
expanded); a close pair collapses to the single union of extents, any
other pair stays as the two distinct boxes. -/
theorem C1_merge_single_margin (b1 b2 : Box) :
    (isClose b1 b2 = true → mergeBoxes [b1, b2] = [union2 b1 b2]) ∧
    (isClose b1 b2 = false → mergeBoxes [b1, b2] = [b1, b2]) ∧
    (isClose b1 b2 = true ↔
      ((b1.minX : ℤ) ≤ (b2.maxX : ℤ) + 30 ∧
        (b2.minX : ℤ) ≤ (b1.maxX : ℤ) + 30 ∧
        (b1.minY : ℤ) ≤ (b2.maxY : ℤ) + 30 ∧
        (b2.minY : ℤ) ≤ (b1.maxY : ℤ) + 30)) := by
  refine ⟨?_, ?_, ?_⟩
  · intro hc
    simp only [mergeBoxes, List.length_cons, List.length_nil]
    norm_num
    simp [mergeLoopFuel, mergeOnce, mergeInner, hc]
  · intro hc
    simp only [mergeBoxes, List.length_cons, List.length_nil]
    norm_num
    simp [mergeLoopFuel, mergeOnce, mergeInner, hc]
  · simp only [isClose, Bool.and_eq_true, decide_eq_true_eq]
    constructor
    · rintro ⟨⟨⟨h1, h2⟩, h3⟩, h4⟩; omega
    · rintro ⟨h1, h2, h3, h4⟩
      refine ⟨⟨⟨by omega, by omega⟩, by omega⟩, by omega⟩

theorem C1_merge_single_margin_witness :
    mergeBoxes [(⟨0, 0, 50, 50⟩ : Box), ⟨60, 0, 100, 40⟩]
        = [union2 ⟨0, 0, 50, 50⟩ ⟨60, 0, 100, 40⟩] ∧
    mergeBoxes [(⟨0, 0, 50, 50⟩ : Box), ⟨91, 0, 141, 50⟩]
        = [⟨0, 0, 50, 50⟩, ⟨91, 0, 141, 50⟩] :=
  ⟨(C1_merge_single_margin ⟨0, 0, 50, 50⟩ ⟨60, 0, 100, 40⟩).1 (by decide),
    (C1_merge_single_margin ⟨0, 0, 50, 50⟩ ⟨91, 0, 141, 50⟩).2.1
      (by decide)⟩

/-- C10: a box that is degenerate on either axis has computed area
`(maxX - minX) * (maxY - minY) = 0`, and since the noise filter keeps a
box only when that area is strictly greater than 400, such a box is never
kept. -/
theorem C10_degenerate_box_filtered (l : List Box) (b : Box)
    (hdeg : b.maxX = b.minX ∨ b.maxY = b.minY) :
    (b.maxX - b.minX) * (b.maxY - b.minY) = 0 ∧
      b ∉ significantBoxes l := by
  have hz : (b.maxX - b.minX) * (b.maxY - b.minY) = 0 := by
    rcases hdeg with h | h <;> simp [h, Nat.sub_self]
  refine ⟨hz, ?_⟩
  intro hmem
  rw [significantBoxes, List.mem_filter] at hmem
  rw [hz] at hmem
  simp at hmem

theorem C10_degenerate_box_filtered_witness :
    ((⟨3, 0, 3, 500⟩ : Box).maxX - (⟨3, 0, 3, 500⟩ : Box).minX) *
        ((⟨3, 0, 3, 500⟩ : Box).maxY - (⟨3, 0, 3, 500⟩ : Box).minY) = 0 ∧
      (⟨3, 0, 3, 500⟩ : Box) ∉
        significantBoxes [(⟨3, 0, 3, 500⟩ : Box)] :=
  C10_degenerate_box_filtered [⟨3, 0, 3, 500⟩] ⟨3, 0, 3, 500⟩
    (Or.inl rfl)

/-- C2 (failing input): on the 8×4 ink mask `inkCE`, pass 1 assigns the
provisional labels 2 (at (4,0) and (5,1)) and 3 (at (6,0) and (7,1));
the pixels (5,1) and (6,0) are diagonally adjacent ink, so labels 2 and 3
belong to one connected component, and the merge `3 → 2` is recorded —
but a later merge overwrites the table entry to `3 → 1`, after which
label 2 resolves to 2 while label 3 resolves to 1: two labels of the same
component reach different fixed points, and 2's fixed point is not the
smallest label merged into its component. -/
theorem C2_equivalence_table_loses_merge :
    ((pass1 8 4 inkCE).labels (4, 0) = 2 ∧
      (pass1 8 4 inkCE).labels (5, 1) = 2 ∧
      (pass1 8 4 inkCE).labels (6, 0) = 3 ∧
      (pass1 8 4 inkCE).labels (7, 1) = 3) ∧
    (inkCE 5 1 = true ∧ inkCE 6 0 = true) ∧
    ((pass1 8 4 inkCE).equiv 2 = none ∧
      (pass1 8 4 inkCE).equiv 3 = some 1) ∧
    resolveLabel (pass1 8 4 inkCE).equiv 2 = 2 ∧
    resolveLabel (pass1 8 4 inkCE).equiv 3 = 1 ∧
    resolveLabel (pass1 8 4 inkCE).equiv 2 ≠
      resolveLabel (pass1 8 4 inkCE).equiv 3 := by
  decide

/-- C9: when the drawing context cannot be created, the error thrown
inside the `img.onload` handler of `detectTextRegions` is not routed to
any `reject` (the Promise executor only captures `resolve`), so the
promise never settles: the caller observes a forever-pending promise
rather than a propagated error. -/
theorem C9_null_context_never_settles :
    detectTextRegionsOutcome Nat false 0 = PromiseOutcome.pending ∧
    (∀ msg : String,
      detectTextRegionsOutcome Nat false 0 ≠ PromiseOutcome.rejected msg) ∧
    (∀ r : Nat,
      detectTextRegionsOutcome Nat false 0 ≠ PromiseOutcome.resolved r) := by
  refine ⟨rfl, ?_, ?_⟩
  · intro msg h
    simp [detectTextRegionsOutcome, detectOnload, settleOnload] at h
  · intro r h
    simp [detectTextRegionsOutcome, detectOnload, settleOnload] at h

/-! ### The Otsu scan on degenerate histograms -/

theorem otsuGo_skip (hist : Nat → Nat) (total sum sumB maxVar : ℚ)
    (thr a : Nat) (ha : a ≤ 256) :
    ∀ fuel t, t + fuel = 256 → t ≤ a →
      (∀ i, t ≤ i → i < a → hist i = 0) →
      otsuGo hist total sum t fuel 0 sumB maxVar thr =
        otsuGo hist total sum a (256 - a) 0 sumB maxVar thr := by
  intro fuel
  induction fuel with
  | zero =>
    intro t h256 hta _
    have ht : t = 256 := by omega
    have haa : a = 256 := by omega
    subst ht
    subst haa
    rfl
  | succ f ih =>
    intro t h256 hta hz
    by_cases hteq : t = a
    · subst hteq
      have hfa : 256 - t = f + 1 := by omega
      rw [hfa]
    · have htlt : t < a := by omega
      have h0 : hist t = 0 := hz t le_rfl htlt
      conv_lhs => rw [otsuGo]
      simp only [h0, Nat.cast_zero, add_zero, if_pos rfl]
      exact ih (t + 1) (by omega) (by omega)
        (fun i hi1 hi2 => hz i (by omega) hi2)

theorem otsuGo_plateau (hist : Nat → Nat) (total sum wB sumB maxVar : ℚ)
    (thr b : Nat) (hb : b ≤ 255) (hwB : 0 < wB) (hhb : 0 < hist b)
    (htot : total = wB + (hist b : ℚ))
    (hmax : maxVar = wB * (total - wB) *
      (sumB / wB - (sum - sumB) / (total - wB)) ^ 2) :
    ∀ fuel t, t + fuel = 256 → t ≤ b →
      (∀ i, t ≤ i → i < b → hist i = 0) →
      otsuGo hist total sum t fuel wB sumB maxVar thr = thr := by
  have hwBne : wB ≠ 0 := ne_of_gt hwB
  have hbQ : (0 : ℚ) < (hist b : ℚ) := by exact_mod_cast hhb
  intro fuel
  induction fuel with
  | zero => intro t h256 htb _; omega
  | succ f ih =>
    intro t h256 htb hz
    by_cases hteq : t = b
    · subst hteq
      conv_lhs => rw [otsuGo]
      have h1 : wB + (hist t : ℚ) ≠ 0 :=
        ne_of_gt (add_pos_of_pos_of_nonneg hwB (Nat.cast_nonneg _))
      rw [if_neg h1, if_pos (by rw [← htot]; ring)]
    · have htlt : t < b := by omega
      have h0 : hist t = 0 := hz t le_rfl htlt
      conv_lhs => rw [otsuGo]
      simp only [h0, Nat.cast_zero, add_zero, mul_zero]
      have hwFne : total - wB ≠ 0 := by
        rw [htot]
        intro hcon
        rw [add_sub_cancel_left] at hcon
        exact absurd hcon (ne_of_gt hbQ)
      rw [if_neg hwBne, if_neg hwFne,
        if_neg (by rw [hmax]; exact lt_irrefl _)]
      exact ih (t + 1) (by omega) (by omega)
        (fun i hi1 hi2 => hz i (by omega) hi2)

/-- A histogram whose mass sits entirely in bins 0 and 255 (a pure
black-and-white working image) gets Otsu threshold 0: the between-class
variance is the same for every candidate `t < 255`, and the strict
`variance > maxVariance` update keeps the first maximizing `t = 0`. -/
theorem otsu_two_level (hist : Nat → Nat) (total : Nat)
    (hz : ∀ t, 1 ≤ t → t ≤ 254 → hist t = 0)
    (htot : total = hist 0 + hist 255) :
    otsu hist total = 0 := by
  unfold otsu
  by_cases h0 : hist 0 = 0
  · by_cases h255 : hist 255 = 0
    · rw [otsuGo_skip hist (total : ℚ) (otsuSum hist) 0 0 0 256 le_rfl
        256 0 rfl (by omega) ?_]
      · norm_num
        rfl
      · intro i h1 h2
        rcases Nat.eq_zero_or_pos i with hi | hi
        · rw [hi]; exact h0
        · rcases Nat.lt_or_ge i 255 with hi2 | hi2
          · exact hz i hi (by omega)
          · have : i = 255 := by omega
            rw [this]; exact h255
    · rw [otsuGo_skip hist (total : ℚ) (otsuSum hist) 0 0 0 255
        (by omega) 256 0 rfl (by omega) ?_]
      · norm_num
        conv_lhs => rw [otsuGo]
        have h1 : (0 : ℚ) + (hist 255 : ℚ) ≠ 0 := by
          simpa using h255
        rw [if_neg h1, if_pos ?_]
        have : total = hist 255 := by omega
        rw [this]
        ring
      · intro i h1 h2
        rcases Nat.eq_zero_or_pos i with hi | hi
        · rw [hi]; exact h0
        · exact hz i hi (by omega)
  · conv_lhs => rw [otsuGo]
    have h1 : (0 : ℚ) + (hist 0 : ℚ) ≠ 0 := by simpa using h0
    rw [if_neg h1]
    by_cases h255 : hist 255 = 0
    · rw [if_pos ?_]
      have : total = hist 0 := by omega
      rw [this]
      ring
    · have hwF : (total : ℚ) - ((0 : ℚ) + (hist 0 : ℚ)) = (hist 255 : ℚ) := by
        rw [htot]; push_cast; ring
      rw [if_neg (by rw [hwF]; simpa using h255)]
      simp only [zero_add, Nat.cast_zero, zero_mul, add_zero]
      have hwBpos : (0 : ℚ) < (hist 0 : ℚ) := by
        exact_mod_cast Nat.pos_of_ne_zero h0
      have htotQ : (total : ℚ) = (hist 0 : ℚ) + (hist 255 : ℚ) := by
        rw [htot]; push_cast; ring
      have hzz : ∀ i, 1 ≤ i → i < 255 → hist i = 0 :=
        fun i hi1 hi2 => hz i hi1 (by omega)
      have hnn : (0 : ℚ) ≤ (hist 0 : ℚ) * ((total : ℚ) - (hist 0 : ℚ)) *
          ((0 : ℚ) / (hist 0 : ℚ) -
            (otsuSum hist - 0) / ((total : ℚ) - (hist 0 : ℚ))) ^ 2 := by
        apply mul_nonneg
        · apply mul_nonneg (le_of_lt hwBpos)
          rw [htotQ, add_sub_cancel_left]
          exact Nat.cast_nonneg _
        · exact sq_nonneg _
      split_ifs with hv
      · exact otsuGo_plateau hist (total : ℚ) (otsuSum hist) (hist 0 : ℚ) 0
          _ 0 255 (by omega) hwBpos (Nat.pos_of_ne_zero h255) htotQ rfl
          255 1 rfl (by omega) hzz
      · exact otsuGo_plateau hist (total : ℚ) (otsuSum hist) (hist 0 : ℚ) 0
          0 0 255 (by omega) hwBpos (Nat.pos_of_ne_zero h255) htotQ
          (le_antisymm hnn (not_lt.mp hv)) 255 1 rfl (by omega) hzz

/-- A histogram whose mass sits entirely in one bin `g` (a uniform image)
gets Otsu threshold 0: every candidate below `g` has `wB == 0` and is
skipped, and at `g` the foreground weight is 0, which breaks the scan with
the initial threshold 0. -/
theorem otsu_single_bin (hist : Nat → Nat) (total g : Nat)
    (hz : ∀ t, t ≠ g → hist t = 0) (htot : total = hist g) :
    otsu hist total = 0 := by
  unfold otsu
  rcases Nat.lt_or_ge g 256 with hg | hg
  · rw [otsuGo_skip hist (total : ℚ) (otsuSum hist) 0 0 0 g (by omega)
      256 0 rfl (by omega) (fun i _ hi2 => hz i (by omega))]
    rw [show 256 - g = (255 - g) + 1 from by omega]
    conv_lhs => rw [otsuGo]
    by_cases hgz : hist g = 0
    · simp only [hgz, Nat.cast_zero, add_zero]
      rw [if_pos trivial]
      rw [otsuGo_skip hist (total : ℚ) (otsuSum hist) 0 0 0 256 le_rfl
        (255 - g) (g + 1) (by omega) (by omega)
        (fun i hi1 _ => hz i (by omega))]
      norm_num
      rfl
    · have h1 : (0 : ℚ) + (hist g : ℚ) ≠ 0 := by simpa using hgz
      rw [if_neg h1, if_pos ?_]
      rw [htot]
      ring
  · rw [otsuGo_skip hist (total : ℚ) (otsuSum hist) 0 0 0 256 le_rfl
      256 0 rfl (by omega) (fun i _ hi2 => hz i (by omega))]
    norm_num
    rfl

/-! ### Histogram values as pixel counts -/

theorem histFold_countP (gray : Nat → Nat → Nat) (t : Nat) :
    ∀ (L : List (Nat × Nat)) (f : Nat → Nat),
      (L.foldl (fun f2 p => bumpHist f2 (gray p.1 p.2)) f) t =
        f t + L.countP (fun p => decide (gray p.1 p.2 = t)) := by
  intro L
  induction L with
  | nil => intro f; simp
  | cons p L ih =>
    intro f
    rw [List.foldl_cons, ih, List.countP_cons]
    simp only [bumpHist]
    by_cases hp : gray p.1 p.2 = t
    · subst hp
      simp
      omega
    · rw [if_neg (fun hc => hp hc.symm)]
      simp [hp]

theorem histogram_countP (w h : Nat) (gray : Nat → Nat → Nat) (t : Nat) :
    histogram w h gray t =
      (pixelList w h).countP (fun p => decide (gray p.1 p.2 = t)) := by
  unfold histogram
  rw [histFold_countP]
  simp

theorem length_pixelList (w h : Nat) : (pixelList w h).length = w * h := by
  unfold pixelList
  rw [List.length_flatMap]
  rw [show (List.length ∘ fun y => List.map (fun (x : Nat) => (x, y))
      (List.range w)) = fun _ => w from by funext y; simp]
  rw [List.map_const', List.length_range, List.sum_replicate, smul_eq_mul,
    Nat.mul_comm]

theorem countP_split {α : Type} (L : List α) (p q : α → Bool)
    (h : ∀ a ∈ L, (p a = true ∧ q a = false) ∨
      (p a = false ∧ q a = true)) :
    L.countP p + L.countP q = L.length := by
  induction L with
  | nil => simp
  | cons a L ih =>
    rw [List.countP_cons, List.countP_cons, List.length_cons]
    have hL := ih (fun b hb => h b (List.mem_cons_of_mem a hb))
    rcases h a (List.mem_cons_self a L) with ⟨h1, h2⟩ | ⟨h1, h2⟩ <;>
      simp [h1, h2] <;> omega

/-! ### An all-background image produces nothing -/

theorem foldl_labelStep_id (w : Nat) (ink : Nat → Nat → Bool)
    (hink : ∀ x y, ink x y = false) :
    ∀ (L : List (Nat × Nat)) (s : LState),
      L.foldl (labelStep w ink) s = s := by
  intro L
  induction L with
  | nil => intro s; rfl
  | cons p L ih =>
    intro s
    rw [List.foldl_cons,
      show labelStep w ink s p = s from by simp [labelStep, hink]]
    exact ih s

theorem pass1_no_ink (w h : Nat) (ink : Nat → Nat → Bool)
    (hink : ∀ x y, ink x y = false) : pass1 w h ink = initLState :=
  foldl_labelStep_id w ink hink (pixelList w h) initLState

theorem boxMapOf_zero (w h : Nat) (lab : Nat × Nat → Nat)
    (hlab : ∀ p, lab p = 0) : ∀ k, boxMapOf w h lab k = none := by
  have hfold : ∀ (L : List (Nat × Nat)) (bm : Nat → Option Box),
      L.foldl (boxStep lab) bm = bm := by
    intro L
    induction L with
    | nil => intro bm; rfl
    | cons p L ih =>
      intro bm
      rw [List.foldl_cons,
        show boxStep lab bm p = bm from by simp [boxStep, hlab]]
      exact ih bm
  intro k
  unfold boxMapOf
  rw [hfold]

theorem detect_of_otsu_zero (w h : Nat) (gray : Nat → Nat → Nat)
    (scale : ℚ) (ow oh : ℤ)
    (h0 : otsu (histogram w h gray) (w * h) = 0) :
    detectRegions w h gray scale ow oh = [] := by
  have hink : ∀ x y, inkOf gray 0 x y = false := by
    intro x y; simp [inkOf]
  simp only [detectRegions, h0]
  rw [pass1_no_ink w h _ hink]
  have hlab : ∀ p, pass2 initLState p = 0 := by
    intro p; simp [pass2, initLState]
  have hbox : boxList w h (pass2 initLState) initLState.next = [] := by
    unfold boxList
    exact List.filterMap_eq_nil_iff.mpr
      (fun a _ => boxMapOf_zero w h _ hlab a)
  rw [hbox]
  simp [significantBoxes, mergeBoxes]

/-- C5: on any all-uniform image (every pixel with the same luminance
`g`, e.g. a light background with no dark pixels), the Otsu threshold is
0, binarization marks no pixel as ink, labeling assigns no non-background
label, the box record stays empty and the pipeline returns no region —
and, all functions being total, no error is raised. -/
theorem C5_uniform_image_empty (w h g : Nat) (scale : ℚ) (ow oh : ℤ) :
    otsu (histogram w h (uniformGray g)) (w * h) = 0 ∧
    (∀ x y, inkOf (uniformGray g) 0 x y = false) ∧
    (∀ p, (pass1 w h (inkOf (uniformGray g) 0)).labels p = 0) ∧
    boxList w h (pass2 (pass1 w h (inkOf (uniformGray g) 0)))
      (pass1 w h (inkOf (uniformGray g) 0)).next = [] ∧
    detectRegions w h (uniformGray g) scale ow oh = [] := by
  have hink : ∀ x y, inkOf (uniformGray g) 0 x y = false := by
    intro x y; simp [inkOf]
  have hhz : ∀ t, t ≠ g → histogram w h (uniformGray g) t = 0 := by
    intro t ht
    rw [histogram_countP]
    refine List.countP_eq_zero.mpr (fun p _ => ?_)
    simp only [uniformGray, decide_eq_true_eq]
    exact fun hgt => ht hgt.symm
  have hhg : histogram w h (uniformGray g) g = w * h := by
    rw [histogram_countP]
    rw [List.countP_eq_length.mpr (fun p _ => by simp [uniformGray])]
    exact length_pixelList w h
  have hthr : otsu (histogram w h (uniformGray g)) (w * h) = 0 :=
    otsu_single_bin _ _ g hhz hhg.symm
  refine ⟨hthr, hink, ?_, ?_, detect_of_otsu_zero w h _ scale ow oh hthr⟩
  · intro p
    rw [pass1_no_ink w h _ hink]
    rfl
  · rw [pass1_no_ink w h _ hink]
    unfold boxList
    refine List.filterMap_eq_nil_iff.mpr (fun a _ => ?_)
    exact boxMapOf_zero w h _ (fun p => by simp [pass2, initLState]) a

/-- Any working image whose pixels are all pure black (0) or pure white
(255) — e.g. an exactly upscaled binary test card — produces zero
regions: its histogram is two-level, Otsu keeps threshold 0 and nothing
binarizes to ink. -/
theorem detect_two_level (w h : Nat) (gray : Nat → Nat → Nat)
    (scale : ℚ) (ow oh : ℤ)
    (hg : ∀ x y, gray x y = 0 ∨ gray x y = 255) :
    detectRegions w h gray scale ow oh = [] := by
  apply detect_of_otsu_zero
  apply otsu_two_level
  · intro t ht1 ht2
    rw [histogram_countP]
    refine List.countP_eq_zero.mpr (fun p _ => ?_)
    simp only [decide_eq_true_eq]
    rcases hg p.1 p.2 with hv | hv <;> omega
  · rw [histogram_countP, histogram_countP, ← length_pixelList w h]
    refine (countP_split (pixelList w h) _ _ (fun p _ => ?_)).symm
    rcases hg p.1 p.2 with hv | hv
    · left; constructor <;> simp [hv]
    · right; constructor <;> simp [hv]

/-! ### The Otsu scan on a two-spike histogram -/

theorem sum_map_range_zero (f : Nat → ℚ) :
    ∀ n, (∀ i, i < n → f i = 0) → ((List.range n).map f).sum = 0 := by
  intro n
  induction n with
  | zero => intro _; simp
  | succ m ih =>
    intro hz
    rw [List.range_succ, List.map_append, List.sum_append,
      ih (fun i hi => hz i (by omega))]
    simp [hz m (by omega)]

theorem sum_map_range_single (f : Nat → ℚ) (a : Nat) :
    ∀ n, a < n → (∀ i, i < n → i ≠ a → f i = 0) →
      ((List.range n).map f).sum = f a := by
  intro n
  induction n with
  | zero => intro hc; omega
  | succ m ih =>
    intro han hz
    rw [List.range_succ, List.map_append, List.sum_append]
    by_cases hma : m = a
    · subst hma
      rw [sum_map_range_zero f m (fun i hi => hz i (by omega) (by omega))]
      simp
    · rw [ih (by omega) (fun i hi => hz i (by omega))]
      simp [hz m (by omega) hma]

theorem sum_map_range_pair (f : Nat → ℚ) (a b : Nat) (hab : a < b) :
    ∀ n, b < n → (∀ i, i < n → i ≠ a → i ≠ b → f i = 0) →
      ((List.range n).map f).sum = f a + f b := by
  intro n
  induction n with
  | zero => intro hc; omega
  | succ m ih =>
    intro hbn hz
    rw [List.range_succ, List.map_append, List.sum_append]
    by_cases hmb : m = b
    · subst hmb
      rw [sum_map_range_single f a m hab
        (fun i hi hia => hz i (by omega) hia (by omega))]
      simp
    · rw [ih (by omega) (fun i hi => hz i (by omega))]
      have hma : m ≠ a := by omega
      simp [hz m (by omega) hma hmb]

theorem otsuSum_twoSpike (a b n1 n2 : Nat) (hab : a < b) (hb : b ≤ 255) :
    otsuSum (twoSpikeHist a b n1 n2) = (a : ℚ) * n1 + (b : ℚ) * n2 := by
  unfold otsuSum
  rw [sum_map_range_pair
    (fun (i : Nat) => (i : ℚ) * (twoSpikeHist a b n1 n2 i : ℚ)) a b hab 256
    (by omega) (fun i _ hia hib => by simp [twoSpikeHist, hia, hib])]
  simp [twoSpikeHist, hab.ne']

/-- On a two-spike histogram (all mass at luminances `a < b`), the
between-class variance is the same for every candidate in `[a, b)`, so
the first-maximizer tie rule returns the lower peak `a` — not the
midpoint of the peaks. -/
theorem otsu_two_spike (a b n1 n2 : Nat) (hab : a < b) (hb : b ≤ 255)
    (h1 : 0 < n1) (h2 : 0 < n2) :
    otsu (twoSpikeHist a b n1 n2) (n1 + n2) = a := by
  have hha : twoSpikeHist a b n1 n2 a = n1 := by simp [twoSpikeHist]
  have hhb : twoSpikeHist a b n1 n2 b = n2 := by
    simp [twoSpikeHist, hab.ne']
  have hn1 : ((n1 : ℚ)) ≠ 0 := Nat.cast_ne_zero.mpr (by omega)
  have hn2 : ((n2 : ℚ)) ≠ 0 := Nat.cast_ne_zero.mpr (by omega)
  have hn1p : (0 : ℚ) < (n1 : ℚ) := by exact_mod_cast h1
  have hsum := otsuSum_twoSpike a b n1 n2 hab hb
  unfold otsu
  rw [otsuGo_skip _ _ _ 0 0 0 a (by omega) 256 0 rfl (by omega)
    (fun i _ hi2 => by simp [twoSpikeHist, show i ≠ a from by omega,
      show i ≠ b from by omega])]
  rw [show 256 - a = (255 - a) + 1 from by omega]
  conv_lhs => rw [otsuGo]
  rw [hha]
  simp only [zero_add]
  have hVeq : (n1 : ℚ) * ((((n1 + n2 : Nat)) : ℚ) - (n1 : ℚ)) *
      ((a : ℚ) * (n1 : ℚ) / (n1 : ℚ) -
        (otsuSum (twoSpikeHist a b n1 n2) - (a : ℚ) * (n1 : ℚ)) /
          ((((n1 + n2 : Nat)) : ℚ) - (n1 : ℚ))) ^ 2 =
      (n1 : ℚ) * (n2 : ℚ) * ((a : ℚ) - (b : ℚ)) ^ 2 := by
    rw [hsum]
    push_cast
    field_simp
  have habQ : ((a : ℚ) - (b : ℚ)) ≠ 0 := by
    have : (a : ℚ) ≠ (b : ℚ) := by exact_mod_cast hab.ne
    exact sub_ne_zero.mpr this
  have hvpos : (0 : ℚ) < (n1 : ℚ) * ((((n1 + n2 : Nat)) : ℚ) - (n1 : ℚ)) *
      ((a : ℚ) * (n1 : ℚ) / (n1 : ℚ) -
        (otsuSum (twoSpikeHist a b n1 n2) - (a : ℚ) * (n1 : ℚ)) /
          ((((n1 + n2 : Nat)) : ℚ) - (n1 : ℚ))) ^ 2 := by
    rw [hVeq]
    have hn2p : (0 : ℚ) < (n2 : ℚ) := by exact_mod_cast h2
    exact mul_pos (mul_pos hn1p hn2p) (pow_two_pos_of_ne_zero habQ)
  have hwBne : ((n1 : ℚ)) ≠ 0 := hn1
  have hwFne : (((n1 + n2 : Nat)) : ℚ) - (n1 : ℚ) ≠ 0 := by
    push_cast
    rw [add_sub_cancel_left]
    exact hn2
  rw [if_neg hwBne, if_neg hwFne, if_pos hvpos]
  refine otsuGo_plateau (twoSpikeHist a b n1 n2) (((n1 + n2 : Nat)) : ℚ)
    (otsuSum (twoSpikeHist a b n1 n2)) (n1 : ℚ) ((a : ℚ) * (n1 : ℚ)) _ a b
    hb hn1p (by rw [hhb]; exact h2) ?_ rfl (255 - a) (a + 1) (by omega)
    (by omega) ?_
  · rw [hhb]
    push_cast
    ring
  · intro i hi1 hi2
    simp [twoSpikeHist, show i ≠ a from by omega, show i ≠ b from by omega]

/-- C6 counterexample: on the synthetic bimodal histogram with equal
separated peaks at 50 and 200, the Binarizer's threshold is 50 (the lower
peak), while the midpoint of the peaks is 125 — off by 75, half the peak
separation, so no small tolerance covers it. -/
theorem C6_otsu_not_midpoint :
    otsu (twoSpikeHist 50 200 100 100) 200 = 50 ∧
    (50 + 200) / 2 = 125 ∧ 125 - 50 = 75 ∧ (50 : Nat) ≠ 125 :=
  ⟨otsu_two_spike 50 200 100 100 (by norm_num) (by norm_num) (by norm_num)
      (by norm_num),
    by norm_num, by norm_num, by norm_num⟩

/-- C6 (amended): for every synthetic two-spike bimodal histogram with
peaks `a < b ≤ 255` of positive masses, the Otsu threshold computed by
the scan (maximizing the between-class variance with ties keeping the
first, lowest maximizing candidate) equals the lower peak `a` — every
candidate in `[a, b)` attains the same maximal variance, so the
first-maximizer rule lands on `a`, which is (b − a)/2 away from the
midpoint of the peaks. -/
theorem C6_otsu_two_spike_lower_peak (a b n1 n2 : Nat) (hab : a < b)
    (hb : b ≤ 255) (h1 : 0 < n1) (h2 : 0 < n2) :
    otsu (twoSpikeHist a b n1 n2) (n1 + n2) = a :=
  otsu_two_spike a b n1 n2 hab hb h1 h2

theorem C6_otsu_two_spike_lower_peak_witness :
    otsu (twoSpikeHist 30 220 500 300) 800 = 30 :=
  C6_otsu_two_spike_lower_peak 30 220 500 300 (by norm_num) (by norm_num)
    (by norm_num) (by norm_num)

/-- C4 counterexample: running the pipeline on the end-to-end scenario —
the 100×100 canvas with the 20×20 black square at (40, 40), upscaled
exactly by the pipeline-computed scale 20 — yields zero Regions, not the
single Region `{x0:30, y0:30, x1:70, y1:70}` the claim asserts: the
working image is pure two-level, so Otsu's first-maximizer rule keeps
threshold 0 and nothing binarizes to ink. -/
theorem C4_scenario_zero_regions :
    computeScale 100 100 = 20 ∧
    detectRegions 2000 2000 (scaledGray 20 scenarioSrc)
      (computeScale 100 100) 100 100 = [] ∧
    (detectRegions 2000 2000 (scaledGray 20 scenarioSrc)
      (computeScale 100 100) 100 100).length ≠ 1 := by
  have hsc : computeScale 100 100 = 20 := by
    unfold computeScale
    norm_num
  have hdet : detectRegions 2000 2000 (scaledGray 20 scenarioSrc)
      (computeScale 100 100) 100 100 = [] := by
    apply detect_two_level
    intro x y
    unfold scaledGray scenarioSrc
    split_ifs with hsq
    · left; rfl
    · right; rfl
  exact ⟨hsc, hdet, by rw [hdet]; simp⟩

/-- C4 (amended): RegionExtractor maps every merged working-resolution
box to original coordinates by `x0 = max(0, floor(minX/scale) − padding)`,
`y0 = max(0, floor(minY/scale) − padding)`,
`x1 = min(origWidth, ceil(maxX/scale) + padding)`,
`y1 = min(origHeight, ceil(maxY/scale) + padding)`; but on the 100×100
white canvas with a 20×20 black square at (40, 40) (minimum area 400,
padding 10, exactly modelled upscale by the pipeline-computed scale 20)
the whole pipeline yields zero Regions, not one: the pure two-level
working image makes Otsu keep threshold 0, so no ink survives
binarization. -/
theorem C4_region_scaling :
    (∀ (scale : ℚ) (padding ow oh : ℤ) (b : Box),
      (scaleBox scale padding ow oh b).x0
          = max 0 (⌊(b.minX : ℚ) / scale⌋ - padding) ∧
      (scaleBox scale padding ow oh b).y0
          = max 0 (⌊(b.minY : ℚ) / scale⌋ - padding) ∧
      (scaleBox scale padding ow oh b).x1
          = min ow (⌈(b.maxX : ℚ) / scale⌉ + padding) ∧
      (scaleBox scale padding ow oh b).y1
          = min oh (⌈(b.maxY : ℚ) / scale⌉ + padding)) ∧
    detectRegions 2000 2000 (scaledGray 20 scenarioSrc)
      (computeScale 100 100) 100 100 = [] := by
  refine ⟨fun scale padding ow oh b => ⟨rfl, rfl, rfl, rfl⟩, ?_⟩
  apply detect_two_level
  intro x y
  unfold scaledGray scenarioSrc
  split_ifs with hsq
  · left; rfl
  · right; rfl

/-! ### Structure of the row-major scan -/

theorem pixelList_eq (w : Nat) :
    ∀ h, pixelList w h =
      (List.range (w * h)).map (fun k => (k % w, k / w)) := by
  intro h
  induction h with
  | zero => simp [pixelList]
  | succ m ih =>
    rcases Nat.eq_zero_or_pos w with hw | hw
    · subst hw
      simp [pixelList]
    · unfold pixelList at ih ⊢
      rw [List.range_succ, List.flatMap_append,
        show w * (m + 1) = w * m + w from by ring, List.range_add,
        List.map_append, ih]
      congr 1
      rw [List.flatMap_cons, List.flatMap_nil, List.append_nil,
        List.map_map]
      refine List.map_congr_left (fun x hx => ?_)
      rw [List.mem_range] at hx
      have hmod : (w * m + x) % w = x := by
        rw [Nat.mul_add_mod, Nat.mod_eq_of_lt hx]
      have hdiv : (w * m + x) / w = m := by
        rw [Nat.mul_add_div hw, Nat.div_eq_of_lt hx, Nat.add_zero]
      simp [Function.comp, hmod, hdiv]

theorem scanUpTo_succ (w h : Nat) (ink : Nat → Nat → Bool) (k : Nat)
    (hk : k < w * h) :
    scanUpTo w h ink (k + 1) =
      labelStep w ink (scanUpTo w h ink k) (k % w, k / w) := by
  unfold scanUpTo
  have hget : (pixelList w h)[k]? = some (k % w, k / w) := by
    rw [pixelList_eq, List.getElem?_map, List.getElem?_range hk]
    rfl
  rw [List.take_succ, hget]
  simp [List.foldl_append]

theorem coord_unique (w a b c d : Nat) (ha : a < w) (hc : c < w)
    (h : b * w + a = d * w + c) : a = c ∧ b = d := by
  have hw : 0 < w := by omega
  constructor
  · have h1 : (b * w + a) % w = a := by
      rw [Nat.add_comm, Nat.add_mul_mod_self_right, Nat.mod_eq_of_lt ha]
    have h2 : (d * w + c) % w = c := by
      rw [Nat.add_comm, Nat.add_mul_mod_self_right, Nat.mod_eq_of_lt hc]
    rw [← h1, ← h2, h]
  · have h1 : (b * w + a) / w = b := by
      rw [Nat.add_comm, Nat.add_mul_div_right _ _ hw, Nat.div_eq_of_lt ha,
        Nat.zero_add]
    have h2 : (d * w + c) / w = d := by
      rw [Nat.add_comm, Nat.add_mul_div_right _ _ hw, Nat.div_eq_of_lt hc,
        Nat.zero_add]
    rw [← h1, ← h2, h]

theorem pred_mul_add (y w : Nat) (hy : 0 < y) :
    (y - 1) * w + w = y * w := by
  cases y with
  | zero => omega
  | succ m => simp [Nat.succ_sub_one, Nat.succ_mul]

/-! ### The JS minimum of a label list -/

theorem foldl_min_choice :
    ∀ (r : List Nat) (a : Nat),
      r.foldl Nat.min a = a ∨ r.foldl Nat.min a ∈ r := by
  intro r
  induction r with
  | nil => intro a; left; rfl
  | cons b r2 ih =>
    intro a
    rw [List.foldl_cons]
    rcases ih (Nat.min a b) with hc | hc
    · rcases Nat.le_total a b with hab | hab
      · left
        rw [hc]
        exact min_eq_left hab
      · right
        rw [hc, show Nat.min a b = b from min_eq_right hab]
        exact List.mem_cons_self b r2
    · right
      exact List.mem_cons_of_mem b hc

theorem foldl_min_le_init :
    ∀ (r : List Nat) (a : Nat), r.foldl Nat.min a ≤ a := by
  intro r
  induction r with
  | nil => intro a; exact le_rfl
  | cons b r2 ih =>
    intro a
    rw [List.foldl_cons]
    exact le_trans (ih (Nat.min a b)) (Nat.min_le_left a b)

theorem foldl_min_le_mem :
    ∀ (r : List Nat) (a n : Nat), n ∈ r → r.foldl Nat.min a ≤ n := by
  intro r
  induction r with
  | nil => intro a n hn; simp at hn
  | cons b r2 ih =>
    intro a n hn
    rw [List.foldl_cons]
    rcases List.mem_cons.mp hn with hb | hb
    · subst hb
      exact le_trans (foldl_min_le_init r2 (Nat.min a n))
        (Nat.min_le_right a n)
    · exact ih (Nat.min a b) n hb

theorem jsMin_mem (l : List Nat) (hl : l ≠ []) : jsMin l ∈ l := by
  cases l with
  | nil => exact absurd rfl hl
  | cons a r =>
    rcases foldl_min_choice r a with hc | hc
    · rw [jsMin, hc]
      exact List.mem_cons_self a r
    · exact List.mem_cons_of_mem a hc

theorem jsMin_le (l : List Nat) : ∀ n ∈ l, jsMin l ≤ n := by
  cases l with
  | nil => intro n hn; simp at hn
  | cons a r =>
    intro n hn
    rcases List.mem_cons.mp hn with hb | hb
    · subst hb
      exact foldl_min_le_init r n
    · exact foldl_min_le_mem r a n hb

/-! ### The collected neighbor labels -/

theorem filter_map_if_seg (c : Prop) [Decidable c] (q : Nat × Nat)
    (ink : Nat → Nat → Bool) (lab : Nat × Nat → Nat) :
    ((if c then [q] else []).filter (fun r => ink r.1 r.2)).map lab
      = if c ∧ ink q.1 q.2 = true then [lab q] else [] := by
  by_cases hc : c
  · by_cases hi : ink q.1 q.2 = true
    · simp [hc, hi]
    · simp [hc, hi]
  · simp [hc]

theorem neighborList_eq_observed (w : Nat) (ink : Nat → Nat → Bool)
    (lab : Nat × Nat → Nat) (x y : Nat) :
    neighborList w ink lab x y = observedNeighborLabels w ink lab x y := by
  unfold neighborList observedNeighborLabels causalNeighbors
  rw [List.filter_append, List.filter_append, List.filter_append,
    List.map_append, List.map_append, List.map_append,
    filter_map_if_seg, filter_map_if_seg, filter_map_if_seg,
    filter_map_if_seg]
  simp [and_assoc]

theorem mem_neighborList (w : Nat) (ink : Nat → Nat → Bool)
    (lab : Nat × Nat → Nat) (x y n : Nat)
    (hn : n ∈ neighborList w ink lab x y) :
    (0 < x ∧ ink (x - 1) y = true ∧ n = lab (x - 1, y)) ∨
    (0 < y ∧ ink x (y - 1) = true ∧ n = lab (x, y - 1)) ∨
    (0 < x ∧ 0 < y ∧ ink (x - 1) (y - 1) = true ∧
      n = lab (x - 1, y - 1)) ∨
    (x + 1 < w ∧ 0 < y ∧ ink (x + 1) (y - 1) = true ∧
      n = lab (x + 1, y - 1)) := by
  unfold neighborList at hn
  simp only [List.mem_append] at hn
  rcases hn with ((h | h) | h) | h <;> split_ifs at h <;> simp_all

theorem labelStep_labels_ne (w : Nat) (ink : Nat → Nat → Bool)
    (s : LState) (p q : Nat × Nat) (hq : q ≠ p) :
    (labelStep w ink s p).labels q = s.labels q := by
  simp only [labelStep]
  split_ifs <;> simp [updLabels, hq]

theorem labelStep_next_ge (w : Nat) (ink : Nat → Nat → Bool)
    (s : LState) (p : Nat × Nat) :
    s.next ≤ (labelStep w ink s p).next := by
  simp only [labelStep]
  split_ifs <;> simp

theorem neighborList_pos (w h2 : Nat) (ink : Nat → Nat → Bool)
    (lab : Nat × Nat → Nat) (x y : Nat) (hx : x < w) (hy : y < h2)
    (hprev : ∀ a b : Nat, a < w → b < h2 → b * w + a < y * w + x →
      ink a b = true → 0 < lab (a, b)) :
    ∀ n ∈ neighborList w ink lab x y, 0 < n := by
  intro n hn
  rcases mem_neighborList w ink lab x y n hn with
    ⟨h1, h2, h3⟩ | ⟨h1, h2, h3⟩ | ⟨h1, h2, h3, h4⟩ | ⟨h1, h2, h3, h4⟩
  · rw [h3]
    exact hprev (x - 1) y (by omega) hy (by omega) h2
  · rw [h3]
    have hmul := pred_mul_add y w h1
    exact hprev x (y - 1) hx (by omega) (by omega) h2
  · rw [h4]
    have hmul := pred_mul_add y w h2
    exact hprev (x - 1) (y - 1) (by omega) (by omega) (by omega) h3
  · rw [h4]
    have hmul := pred_mul_add y w h2
    exact hprev (x + 1) (y - 1) (by omega) (by omega) (by omega) h3

theorem foldl_equiv_char (m0 : Nat) :
    ∀ (ns : List Nat) (e : Nat → Option Nat) (k : Nat),
      (∀ n ∈ ns, 0 < n) →
      (ns.foldl
        (fun e2 n => if 0 < n ∧ n ≠ m0 then updEquiv e2 n m0 else e2) e) k
        = if k ∈ ns ∧ k ≠ m0 then some m0 else e k := by
  intro ns
  induction ns with
  | nil => intro e k _; simp
  | cons n ns ih =>
    intro e k hpos
    rw [List.foldl_cons, ih _ k (fun b hb => hpos b (by simp [hb]))]
    by_cases hk : k ∈ ns ∧ k ≠ m0
    · rw [if_pos hk, if_pos ⟨by simp [hk.1], hk.2⟩]
    · rw [if_neg hk]
      by_cases hkn : k = n
      · subst hkn
        by_cases hkm : k = m0
        · rw [if_neg (by tauto), if_neg (by tauto)]
        · rw [if_pos ⟨hpos k (by simp), hkm⟩, if_pos ⟨by simp, hkm⟩]
          simp [updEquiv]
      · have hstep : (if 0 < n ∧ n ≠ m0 then updEquiv e n m0 else e) k
            = e k := by
          split_ifs
          · simp [updEquiv, hkn]
          · rfl
        rw [hstep, if_neg (by
          intro hc
          rcases List.mem_cons.mp hc.1 with hh | hh
          · exact hkn hh
          · exact hk ⟨hh, hc.2⟩)]

/-- The running invariant of pass 1: the fresh-label counter stays
positive, every stored label is below the counter, and every already
scanned foreground pixel carries a positive label. -/
theorem scanInv (w h : Nat) (ink : Nat → Nat → Bool) :
    ∀ k, k ≤ w * h →
      1 ≤ (scanUpTo w h ink k).next ∧
      (∀ q : Nat × Nat,
        (scanUpTo w h ink k).labels q < (scanUpTo w h ink k).next) ∧
      (∀ a b : Nat, a < w → b < h → b * w + a < k → ink a b = true →
        0 < (scanUpTo w h ink k).labels (a, b)) := by
  intro k
  induction k with
  | zero =>
    intro _
    exact ⟨le_rfl, fun q => Nat.zero_lt_one,
      fun a b _ _ hc _ => absurd hc (Nat.not_lt_zero _)⟩
  | succ k ih =>
    intro hk1
    have hk : k < w * h := by omega
    obtain ⟨ihn, ihb, ihp⟩ := ih (by omega)
    have hw : 0 < w := by
      rcases Nat.eq_zero_or_pos w with hw0 | hw0
      · rw [hw0] at hk; simp at hk
      · exact hw0
    have hpx : k % w < w := Nat.mod_lt _ hw
    have hpy : k / w < h := by
      rw [Nat.div_lt_iff_lt_mul hw, Nat.mul_comm]
      exact hk
    have hidx : (k / w) * w + k % w = k := by
      rw [Nat.mul_comm]
      exact Nat.div_add_mod k w
    rw [scanUpTo_succ w h ink k hk]
    have hposn : ∀ n ∈ neighborList w ink (scanUpTo w h ink k).labels
        (k % w) (k / w), 0 < n := by
      refine neighborList_pos w h ink (scanUpTo w h ink k).labels
        (k % w) (k / w) hpx hpy (fun a b ha hb hlt hi => ?_)
      exact ihp a b ha hb (by omega) hi
    have hnext := labelStep_next_ge w ink (scanUpTo w h ink k)
      (k % w, k / w)
    refine ⟨by omega, ?_, ?_⟩
    · intro q
      by_cases hq : q = (k % w, k / w)
      · subst hq
        simp only [labelStep]
        split_ifs with hbg hns
        · exact ihb _
        · simp [updLabels]
        · simp only [updLabels, if_pos rfl]
          by_cases hfe : (neighborList w ink (scanUpTo w h ink k).labels
              (k % w) (k / w)).filter (fun l => decide (0 < l)) = []
          · rw [hfe]
            show jsMin [] < (scanUpTo w h ink k).next
            simp only [jsMin]
            omega
          · have hmm := jsMin_mem _ hfe
            have hmem2 := List.mem_of_mem_filter hmm
            rcases mem_neighborList w ink _ (k % w) (k / w) _ hmem2 with
              ⟨_, _, h3⟩ | ⟨_, _, h3⟩ | ⟨_, _, _, h3⟩ | ⟨_, _, _, h3⟩ <;>
              · rw [h3]
                exact ihb _
      · rw [labelStep_labels_ne w ink _ _ q hq]
        exact lt_of_lt_of_le (ihb q) hnext
    · intro a b ha hb hlt hi
      rcases Nat.lt_or_ge (b * w + a) k with hlt2 | hge
      · have hne : (a, b) ≠ (k % w, k / w) := by
          intro hab
          rw [Prod.mk.injEq] at hab
          obtain ⟨h1, h2⟩ := hab
          subst h1
          subst h2
          omega
        rw [labelStep_labels_ne w ink _ _ _ hne]
        exact ihp a b ha hb hlt2 hi
      · have heq : b * w + a = k := by omega
        obtain ⟨hax, hby⟩ :=
          coord_unique w a b (k % w) (k / w) ha hpx (by omega)
        subst hax
        subst hby
        simp only [labelStep]
        rw [if_neg (by simp [hi])]
        split_ifs with hns
        · simp [updLabels]
          omega
        · simp only [updLabels, if_pos rfl]
          have hfilter : (neighborList w ink (scanUpTo w h ink k).labels
              (k % w) (k / w)).filter (fun l => decide (0 < l)) =
              neighborList w ink (scanUpTo w h ink k).labels
                (k % w) (k / w) :=
            List.filter_eq_self.mpr
              (fun n hn2 => decide_eq_true (hposn n hn2))
          rw [hfilter]
          exact hposn _ (jsMin_mem _ hns)

/-- C3: at every foreground pixel `(x, y)` of the row-major scan, pass 1
inspects exactly the labels of the in-bounds foreground left, top,
top-left and top-right neighbors (`observedNeighborLabels`); every label
already stored is below the monotone counter, so a fresh assignment
(empty observation: counter value assigned, counter incremented, table
untouched) really is fresh; with observations the pixel gets the minimum
of the observed labels, no other grid cell changes, the counter stays,
and the table maps exactly every other observed label to that minimum. -/
theorem C3_pass1_step (w h : Nat) (ink : Nat → Nat → Bool) (x y : Nat)
    (hx : x < w) (hy : y < h) (hfg : ink x y = true) :
    scanUpTo w h ink (y * w + x + 1)
      = labelStep w ink (scanUpTo w h ink (y * w + x)) (x, y) ∧
    (∀ q : Nat × Nat, (scanUpTo w h ink (y * w + x)).labels q <
      (scanUpTo w h ink (y * w + x)).next) ∧
    (observedNeighborLabels w ink
        (scanUpTo w h ink (y * w + x)).labels x y = [] →
      labelStep w ink (scanUpTo w h ink (y * w + x)) (x, y)
        = { labels := updLabels (scanUpTo w h ink (y * w + x)).labels
              (x, y) (scanUpTo w h ink (y * w + x)).next,
            next := (scanUpTo w h ink (y * w + x)).next + 1,
            equiv := (scanUpTo w h ink (y * w + x)).equiv }) ∧
    (∀ ns, ns = observedNeighborLabels w ink
        (scanUpTo w h ink (y * w + x)).labels x y → ns ≠ [] →
      (jsMin ns ∈ ns ∧ (∀ n ∈ ns, jsMin ns ≤ n)) ∧
      (labelStep w ink (scanUpTo w h ink (y * w + x)) (x, y)).labels
          (x, y) = jsMin ns ∧
      (∀ q : Nat × Nat, q ≠ (x, y) →
        (labelStep w ink (scanUpTo w h ink (y * w + x)) (x, y)).labels q
          = (scanUpTo w h ink (y * w + x)).labels q) ∧
      (labelStep w ink (scanUpTo w h ink (y * w + x)) (x, y)).next
          = (scanUpTo w h ink (y * w + x)).next ∧
      (∀ m : Nat,
        (labelStep w ink (scanUpTo w h ink (y * w + x)) (x, y)).equiv m
          = if m ∈ ns ∧ m ≠ jsMin ns then some (jsMin ns)
            else (scanUpTo w h ink (y * w + x)).equiv m)) := by
  have hk : y * w + x < w * h := by
    have h2 : (y + 1) * w ≤ h * w := Nat.mul_le_mul_right w (by omega)
    have h1 : y * w + x < (y + 1) * w := by
      rw [Nat.succ_mul]
      omega
    rw [Nat.mul_comm w h]
    omega
  obtain ⟨ihn, ihb, ihp⟩ := scanInv w h ink (y * w + x) (by omega)
  have hmx : (y * w + x) % w = x := by
    rw [Nat.add_comm, Nat.add_mul_mod_self_right, Nat.mod_eq_of_lt hx]
  have hdx : (y * w + x) / w = y := by
    rw [Nat.add_comm, Nat.add_mul_div_right _ _ (by omega : 0 < w),
      Nat.div_eq_of_lt hx, Nat.zero_add]
  have hstep : scanUpTo w h ink (y * w + x + 1)
      = labelStep w ink (scanUpTo w h ink (y * w + x)) (x, y) := by
    have hss := scanUpTo_succ w h ink (y * w + x) hk
    rw [hmx, hdx] at hss
    exact hss
  have hposn : ∀ n ∈ neighborList w ink
      (scanUpTo w h ink (y * w + x)).labels x y, 0 < n :=
    neighborList_pos w h ink _ x y hx hy ihp
  refine ⟨hstep, ihb, ?_, ?_⟩
  · intro hobs
    have hns : neighborList w ink
        (scanUpTo w h ink (y * w + x)).labels x y = [] := by
      rw [neighborList_eq_observed]
      exact hobs
    simp only [labelStep]
    rw [if_neg (by simp [hfg]), if_pos hns]
  · intro ns hnseq hne
    have hnl : neighborList w ink
        (scanUpTo w h ink (y * w + x)).labels x y = ns := by
      rw [neighborList_eq_observed]
      exact hnseq.symm
    have hposns : ∀ n ∈ ns, 0 < n :=
      fun n hn => hposn n (by rw [hnl]; exact hn)
    have hfilter : ns.filter (fun l => decide (0 < l)) = ns :=
      List.filter_eq_self.mpr (fun a ha => decide_eq_true (hposns a ha))
    have hnsne : ¬ (neighborList w ink
        (scanUpTo w h ink (y * w + x)).labels x y = []) := by
      rw [hnl]
      exact hne
    refine ⟨⟨jsMin_mem ns hne, jsMin_le ns⟩, ?_, ?_, ?_, ?_⟩
    · simp only [labelStep]
      rw [if_neg (by simp [hfg]), if_neg hnsne]
      simp only [updLabels]
      rw [hnl, hfilter]
      simp
    · intro q hq
      exact labelStep_labels_ne w ink _ _ q hq
    · simp only [labelStep]
      rw [if_neg (by simp [hfg]), if_neg hnsne]
    · intro m
      simp only [labelStep]
      rw [if_neg (by simp [hfg]), if_neg hnsne]
      rw [hnl, hfilter]
      dsimp only
      rw [foldl_equiv_char (jsMin ns) ns _ m hposns]

theorem C3_pass1_step_witness :
    scanUpTo 2 1 (fun _ _ => true) (0 * 2 + 1 + 1)
      = labelStep 2 (fun _ _ => true)
          (scanUpTo 2 1 (fun _ _ => true) (0 * 2 + 1)) (1, 0) :=
  (C3_pass1_step 2 1 (fun _ _ => true) 1 0 (by decide) (by decide) rfl).1
